import Mathlib

/-!
# Verification of the VLSM allocation engine (`src/vlsm_table.py`, function `skuska`)

This file shallowly embeds the computational core of the VLSM subnet
calculator: host-list parsing, subnet sizing via Python's `int.bit_length`,
and the greedy allocation loop that walks a cursor over the parent
network's address space.  IPv4 addresses are naturals below `2^32`;
requested host counts are integers (Python `int`), since the program's
parser accepts any integer token.  The `ipaddress` standard-library calls
made by the code (`ip_network(..., strict=False)`, `broadcast_address`,
`num_addresses`, `hosts()`) are embedded with the semantics of Python >= 3.8,
the versions this program runs on.
-/

/-- The size of the IPv4 address space, `2 ^ 32`. -/
def addrSpace : Nat := 4294967296

/-- Fuel-driven helper computing the binary length of a natural number:
`bitLengthAux fuel n` is the number of binary digits of `n`, provided
`n ≤ fuel`. -/
def bitLengthAux : Nat → Nat → Nat
  | 0, _ => 0
  | fuel + 1, n => if n = 0 then 0 else bitLengthAux fuel (n / 2) + 1

/-- Number of binary digits of a natural number (`0` for `0`), i.e. Python's
`int.bit_length` restricted to naturals. -/
def bit_length (n : Nat) : Nat := bitLengthAux n n

/-- Python's `int.bit_length`: number of binary digits of the absolute value.
The source calls this on `requested_hosts + 1` at line 69. -/
def pyBitLength (n : Int) : Nat := bit_length n.natAbs

/-- Line 69 of the source: `bits_needed = (requested_hosts + 1).bit_length()`. -/
def bits_needed (h : Int) : Nat := pyBitLength (h + 1)

/-- Line 72 of the source: `new_prefix = 32 - bits_needed` (Python integer
arithmetic, so the value may be negative for huge requests). -/
def newPrefixOf (h : Int) : Int := 32 - (bits_needed h : Int)

/-- An IPv4 network: canonical network address plus prefix length, the data
carried by an `ipaddress.IPv4Network` value. -/
structure Net where
  network : Nat
  prefixlen : Nat
deriving DecidableEq, Repr

/-- Number of addresses in a block of the given prefix length:
`2 ^ (32 - p)`, i.e. `IPv4Network.num_addresses`. -/
def blockSize (p : Nat) : Nat := 2 ^ (32 - p)

/-- `ipaddress.ip_network(f"{addr}/{p}", strict=False)`: host bits of the
given base address are cleared, yielding the canonical network address. -/
def mkNetNonStrict (addr p : Nat) : Net :=
  { network := blockSize p * (addr / blockSize p), prefixlen := p }

/-- `IPv4Network.broadcast_address`: last address of the block. -/
def Net.broadcast (n : Net) : Nat := n.network + blockSize n.prefixlen - 1

/-- `IPv4Network.num_addresses`. -/
def Net.numAddresses (n : Net) : Nat := blockSize n.prefixlen

/-- `len(list(IPv4Network.hosts()))` with the Python >= 3.8 semantics the
program runs on: a /31 yields both of its addresses, a /32 yields its single
address, and any wider network yields all addresses except the network and
broadcast addresses. -/
def Net.hostsLen (n : Net) : Nat :=
  if n.prefixlen = 31 then 2
  else if n.prefixlen = 32 then 1
  else blockSize n.prefixlen - 2

/-- `IPv4Network.netmask` as an integer: all address bits that are not host
bits. -/
def Net.maskInt (n : Net) : Nat := addrSpace - blockSize n.prefixlen

/-! ## The allocation loop -/

/-- One row of the result table built by the loop body (lines 93-117 of the
source): requested host count, subnet network address and prefix, netmask,
first and last usable host (`none` models the "N/A" strings), broadcast
address, and the usable-host count. -/
structure AllocationRecord where
  requested : Int
  netIp : Nat
  prefixlen : Nat
  mask : Nat
  firstHost : Option Nat
  lastHost : Option Nat
  broadcast : Nat
  usable : Nat
deriving DecidableEq, Repr

/-- The error dialogs the loop can raise: the total-space guard at line 63,
the prefix guard at line 75, the boundary guard at line 87, and the
`except ValueError` handler at line 122 (reached when an address-arithmetic
step leaves the IPv4 range). -/
inductive ErrKind
  | insufficientSpace
  | prefixTooShort
  | boundaryExceeded
  | calcError
deriving DecidableEq, Repr

/-- Observable outcome of the calculation loop: the rows accumulated in
`results`, the final value of `current_ip`, and which error dialog (if any)
ended the loop. -/
structure RunResult where
  records : List AllocationRecord
  finalCursor : Nat
  error : Option ErrKind
deriving DecidableEq, Repr

/-- Lines 93-117 of the source: build the result row for subnet `sub`.
`usable_ips = len(list(sub.hosts()))`; when that count is below 1 the row is
clamped to usable 0 with "N/A" host bounds. -/
def mkRow (h : Int) (sub : Net) : AllocationRecord :=
  let u := sub.hostsLen
  if u < 1 then
    { requested := h, netIp := sub.network, prefixlen := sub.prefixlen,
      mask := sub.maskInt, firstHost := none, lastHost := none,
      broadcast := sub.broadcast, usable := 0 }
  else
    { requested := h, netIp := sub.network, prefixlen := sub.prefixlen,
      mask := sub.maskInt, firstHost := some (sub.network + 1),
      lastHost := some (sub.broadcast - 1),
      broadcast := sub.broadcast, usable := u }

/-- The VLSM calculation loop (lines 59-124 of the source), iterating over the
sorted host list with accumulator `acc` (`results`) and cursor `cur`
(`current_ip`).  Guards in source order: total-size check (line 63), prefix
check (line 75, a `return`), non-strict subnet construction (line 84),
boundary check (line 87), the `ValueError`s that `first_host`/`last_host`
arithmetic can raise for degenerate subnets (lines 95-96), and the
`ValueError` that `current_ip = broadcast + 1` raises at the top of the
address space (line 120, after the row was appended). -/
def allocLoop (parent : Net) : List Int → List AllocationRecord → Nat → RunResult
  | [], acc, cur => ⟨acc, cur, none⟩
  | h :: rest, acc, cur =>
    if (parent.numAddresses : Int) < h + 2 then
      ⟨acc, cur, some .insufficientSpace⟩
    else if (32 - (bits_needed h : Int)) < (parent.prefixlen : Int) then
      ⟨acc, cur, some .prefixTooShort⟩
    else
      let sub := mkNetNonStrict cur (32 - bits_needed h)
      if parent.broadcast < sub.broadcast then
        ⟨acc, cur, some .boundaryExceeded⟩
      else if addrSpace ≤ sub.network + 1 ∨ sub.broadcast = 0 then
        ⟨acc, cur, some .calcError⟩
      else if sub.broadcast + 1 = addrSpace then
        ⟨acc ++ [mkRow h sub], cur, some .calcError⟩
      else
        allocLoop parent rest (acc ++ [mkRow h sub]) (sub.broadcast + 1)

/-- Line 44 of the source: `hosts_list.sort(reverse=True)` — stable sort into
descending order. -/
def sortDesc (l : List Int) : List Int :=
  List.insertionSort (fun a b => b ≤ a) l

/-- The allocation run: normalize the parent network (line 33,
`ip_network(ip_input, strict=False)`), sort the requests descending
(line 44), and run the loop from the parent's network address (line 56). -/
def allocate (addr prefixLen : Nat) (hostsList : List Int) : RunResult :=
  let parent := mkNetNonStrict addr prefixLen
  allocLoop parent (sortDesc hostsList) [] parent.network

/-- Variant of the loop that places each candidate subnet exactly at the
cursor, with no host-bit clearing.  This is the spec's words for step 4 of
the allocator ("network address = current cursor value"); comparing it with
`allocLoop` settles whether the non-strict construction ever clears host
bits. -/
def allocLoopStrict (parent : Net) : List Int → List AllocationRecord → Nat → RunResult
  | [], acc, cur => ⟨acc, cur, none⟩
  | h :: rest, acc, cur =>
    if (parent.numAddresses : Int) < h + 2 then
      ⟨acc, cur, some .insufficientSpace⟩
    else if (32 - (bits_needed h : Int)) < (parent.prefixlen : Int) then
      ⟨acc, cur, some .prefixTooShort⟩
    else
      let sub : Net := ⟨cur, 32 - bits_needed h⟩
      if parent.broadcast < sub.broadcast then
        ⟨acc, cur, some .boundaryExceeded⟩
      else if addrSpace ≤ sub.network + 1 ∨ sub.broadcast = 0 then
        ⟨acc, cur, some .calcError⟩
      else if sub.broadcast + 1 = addrSpace then
        ⟨acc ++ [mkRow h sub], cur, some .calcError⟩
      else
        allocLoopStrict parent rest (acc ++ [mkRow h sub]) (sub.broadcast + 1)

/-- Cursor-at-the-cursor variant of `allocate`. -/
def allocateStrict (addr prefixLen : Nat) (hostsList : List Int) : RunResult :=
  let parent := mkNetNonStrict addr prefixLen
  allocLoopStrict parent (sortDesc hostsList) [] parent.network

/-! ## Parsing and result delivery -/

/-- Parse errors of the host-list input (lines 45-51 of the source). -/
inductive ParseErr
  | invalidHostCount
  | emptyRequirementList
deriving DecidableEq, Repr

/-- Value of a list of decimal digit characters, `none` if empty or any
character is not a digit. -/
def digitsVal : List Char → Option Nat
  | [] => none
  | cs =>
    if cs.all Char.isDigit then
      some (cs.foldl (fun a c => 10 * a + (c.toNat - 48)) 0)
    else none

/-- Python's `int()` on an already-stripped token (line 40 of the source):
an optional sign followed by decimal digits; anything else raises
`ValueError`.  (Python's underscore digit grouping is not modelled; no claim
involves it.) -/
def pyInt (s : String) : Option Int :=
  match s.data with
  | '-' :: rest => (digitsVal rest).map (fun n => -(n : Int))
  | '+' :: rest => (digitsVal rest).map (fun n => (n : Int))
  | cs => (digitsVal cs).map (fun n => (n : Int))

/-- Convert every token, failing if any token fails. -/
def pyIntAll : List String → Option (List Int)
  | [] => some []
  | t :: ts =>
    match pyInt t, pyIntAll ts with
    | some v, some vs => some (v :: vs)
    | _, _ => none

/-- Python's `str.strip()` (no arguments): drop leading and trailing
whitespace characters. -/
def pyStrip (s : String) : String :=
  String.mk (((s.data.dropWhile Char.isWhitespace).reverse.dropWhile
    Char.isWhitespace).reverse)

/-- Lines 38-51 of the source: strip each token, drop empties, convert each
with `int()` (any `ValueError` aborts the whole call), and reject an empty
result list.  Tokens are the pieces obtained from
`hosts_raw.replace(',', '\n').splitlines()`. -/
def parseHosts (tokens : List String) : Except ParseErr (List Int) :=
  match pyIntAll ((tokens.map pyStrip).filter (fun t => ¬ t.data.isEmpty)) with
  | none => .error .invalidHostCount
  | some [] => .error .emptyRequirementList
  | some vs => .ok vs

/-- Decidable equality of `Except` values, for evaluating concrete runs. -/
instance exceptDecEq {e a : Type} [DecidableEq e] [DecidableEq a] : DecidableEq (Except e a)
  | .ok x, .ok y =>
    if h : x = y then .isTrue (by rw [h]) else .isFalse (by intro hc; injection hc; contradiction)
  | .error x, .error y =>
    if h : x = y then .isTrue (by rw [h]) else .isFalse (by intro hc; injection hc; contradiction)
  | .ok _, .error _ => .isFalse (by intro hc; exact Except.noConfusion hc)
  | .error _, .ok _ => .isFalse (by intro hc; exact Except.noConfusion hc)

/-- The full call on numeric parent input and raw host tokens: parse the host
list, then run the allocation. -/
def skuskaRun (addr prefixLen : Nat) (tokens : List String) :
    Except ParseErr RunResult :=
  match parseHosts tokens with
  | .error e => .error e
  | .ok l => .ok (allocate addr prefixLen l)

/-- Lines 75-78 and 128-158 of the source: which allocation records reach the
result window.  The prefix guard `return`s before the window is created, so
nothing is delivered; every other outcome (success or `break`) shows the
accumulated `results` rows (with a placeholder error row when there are
none). -/
def deliveredRecords (r : RunResult) : Option (List AllocationRecord) :=
  match r.error with
  | some .prefixTooShort => none
  | _ => some r.records

/-! ## Lemmas -/

section BitLengthLemmas

theorem bitLengthAux_zero (fuel : Nat) : bitLengthAux fuel 0 = 0 := by
  cases fuel <;> simp [bitLengthAux]

theorem bitLengthAux_irrel (f : Nat) :
    ∀ g n, n ≤ f → n ≤ g → bitLengthAux f n = bitLengthAux g n := by
  induction f with
  | zero =>
    intro g n hf _
    interval_cases n
    simp [bitLengthAux_zero]
  | succ f ih =>
    intro g n hf hg
    rcases Nat.eq_zero_or_pos n with h0 | hpos
    · subst h0; simp [bitLengthAux_zero]
    · obtain ⟨g', rfl⟩ : ∃ g', g = g' + 1 := ⟨g - 1, by omega⟩
      have hn2f : n / 2 ≤ f := by omega
      have hn2g : n / 2 ≤ g' := by omega
      simp only [bitLengthAux, if_neg (by omega : ¬ n = 0)]
      rw [ih g' (n / 2) hn2f hn2g]

theorem bit_length_zero : bit_length 0 = 0 := rfl

theorem bit_length_succ (n : Nat) (h : 1 ≤ n) :
    bit_length n = bit_length (n / 2) + 1 := by
  obtain ⟨m, rfl⟩ : ∃ m, n = m + 1 := ⟨n - 1, by omega⟩
  show bitLengthAux (m + 1) (m + 1) = bitLengthAux ((m + 1) / 2) ((m + 1) / 2) + 1
  simp only [bitLengthAux, if_neg (by omega : ¬ m + 1 = 0)]
  rw [bitLengthAux_irrel m ((m + 1) / 2) ((m + 1) / 2) (by omega) (by omega)]

/-- The binary length is exact from above: `n < 2 ^ bit_length n`. -/
theorem lt_two_pow_bit_length (n : Nat) : n < 2 ^ bit_length n := by
  induction n using Nat.strong_induction_on with
  | _ n ih =>
    rcases Nat.eq_zero_or_pos n with h0 | hpos
    · subst h0; simp [bit_length_zero]
    · rw [bit_length_succ n hpos]
      have hdiv : n / 2 < n := Nat.div_lt_self hpos (by omega)
      have := ih (n / 2) hdiv
      have h2 : n / 2 + 1 ≤ 2 ^ bit_length (n / 2) := this
      calc n ≤ 2 * (n / 2) + 1 := by omega
        _ < 2 * (2 ^ bit_length (n / 2)) := by omega
        _ = 2 ^ (bit_length (n / 2) + 1) := by ring

/-- The binary length is exact from below: `2 ^ (bit_length n - 1) ≤ n` for
positive `n`. -/
theorem two_pow_pred_bit_length_le : ∀ n : Nat, 1 ≤ n → 2 ^ (bit_length n - 1) ≤ n := by
  intro n
  induction n using Nat.strong_induction_on with
  | _ n ih =>
    intro h
    rcases Nat.lt_or_ge n 2 with h2 | h2
    · have hn1 : n = 1 := by omega
      subst hn1
      norm_num [show bit_length 1 = 1 from rfl]
    · rw [bit_length_succ n (by omega)]
      simp only [Nat.add_sub_cancel]
      have hd1 : 1 ≤ n / 2 := by omega
      have hdiv : n / 2 < n := Nat.div_lt_self (by omega) (by omega)
      have hIH := ih (n / 2) hdiv hd1
      have hb1 : 1 ≤ bit_length (n / 2) := by
        rw [bit_length_succ (n / 2) hd1]; omega
      have hdouble : 2 ^ bit_length (n / 2) = 2 * 2 ^ (bit_length (n / 2) - 1) := by
        rw [← pow_succ']
        congr 1
        omega
      omega

theorem bit_length_le_iff (n k : Nat) : bit_length n ≤ k ↔ n < 2 ^ k := by
  constructor
  · intro h
    exact lt_of_lt_of_le (lt_two_pow_bit_length n) (Nat.pow_le_pow_right (by omega) h)
  · intro h
    by_contra hlt
    push_neg at hlt
    rcases Nat.eq_zero_or_pos n with h0 | h1
    · rw [h0, bit_length_zero] at hlt; omega
    · have hle := two_pow_pred_bit_length_le n h1
      have hpow : 2 ^ k ≤ 2 ^ (bit_length n - 1) := Nat.pow_le_pow_right (by omega) (by omega)
      omega

theorem lt_bit_length_iff (n k : Nat) : k < bit_length n ↔ 2 ^ k ≤ n := by
  rw [← Decidable.not_iff_not]
  push_neg
  rw [bit_length_le_iff]

theorem bit_length_mono {m n : Nat} (h : m ≤ n) : bit_length m ≤ bit_length n := by
  rw [bit_length_le_iff]
  exact lt_of_le_of_lt h (lt_two_pow_bit_length n)

/-- Sizing is monotone on positive host counts: a smaller request never needs
more address bits. -/
theorem bits_needed_mono {a b : Int} (ha : 1 ≤ a) (hab : a ≤ b) :
    bits_needed a ≤ bits_needed b := by
  show bit_length (a + 1).natAbs ≤ bit_length (b + 1).natAbs
  apply bit_length_mono
  omega

end BitLengthLemmas

section NetLemmas

theorem blockSize_pos (p : Nat) : 0 < blockSize p := Nat.pos_pow_of_pos _ (by omega)

theorem blockSize_dvd {p q : Nat} (h : q ≤ p) : blockSize p ∣ blockSize q :=
  pow_dvd_pow 2 (by omega)

theorem blockSize_dvd_addrSpace (p : Nat) : blockSize p ∣ addrSpace := by
  show 2 ^ (32 - p) ∣ 4294967296
  have : (4294967296 : Nat) = 2 ^ 32 := by norm_num
  rw [this]
  exact pow_dvd_pow 2 (by omega)

theorem mkNetNonStrict_aligned (addr p : Nat) :
    blockSize p ∣ (mkNetNonStrict addr p).network :=
  Dvd.intro _ rfl

theorem mkNetNonStrict_le (addr p : Nat) : (mkNetNonStrict addr p).network ≤ addr := by
  show blockSize p * (addr / blockSize p) ≤ addr
  rw [Nat.mul_comm]
  exact Nat.div_mul_le_self addr (blockSize p)

/-- A multiple of the block size that is at most `cur` is at most the
network address obtained by clearing `cur`'s host bits. -/
theorem le_mkNet_of_dvd_le {bs m cur : Nat} (hbs : 0 < bs) (hdvd : bs ∣ m)
    (hle : m ≤ cur) : m ≤ bs * (cur / bs) := by
  obtain ⟨k, rfl⟩ := hdvd
  have hk : k ≤ cur / bs := (Nat.le_div_iff_mul_le hbs).2 (by rw [Nat.mul_comm]; exact hle)
  exact Nat.mul_le_mul_left bs hk

/-- The canonical network plus its full block stays inside the address space. -/
theorem mkNetNonStrict_broadcast_lt (addr p : Nat) (haddr : addr < addrSpace) :
    (mkNetNonStrict addr p).broadcast < addrSpace := by
  have hbs : 0 < blockSize p := blockSize_pos p
  obtain ⟨q, hq⟩ := blockSize_dvd_addrSpace p
  have hnet : (mkNetNonStrict addr p).network = blockSize p * (addr / blockSize p) := rfl
  have hdivlt : addr / blockSize p < q := by
    have : addr < blockSize p * q := by rw [← hq]; exact haddr
    exact Nat.div_lt_of_lt_mul (by omega)
  have : blockSize p * (addr / blockSize p) + blockSize p ≤ blockSize p * q := by
    have : addr / blockSize p + 1 ≤ q := hdivlt
    calc blockSize p * (addr / blockSize p) + blockSize p
        = blockSize p * (addr / blockSize p + 1) := by ring
      _ ≤ blockSize p * q := Nat.mul_le_mul_left _ this
  show (mkNetNonStrict addr p).network + blockSize p - 1 < addrSpace
  rw [hnet, ← hq] at *
  omega

end NetLemmas

/-! ## Sizing facts -/

theorem natAbs_lt_two_pow_bits_needed (h : Int) :
    (h + 1).natAbs < 2 ^ bits_needed h :=
  lt_two_pow_bit_length (h + 1).natAbs

/-- For a non-negative request the sized block holds the request plus the
network and broadcast addresses. -/
theorem add_two_le_two_pow_bits_needed {h : Int} (h0 : 0 ≤ h) :
    h + 2 ≤ (2 : Int) ^ bits_needed h := by
  have hlt := natAbs_lt_two_pow_bits_needed h
  have habs : ((h + 1).natAbs : Int) = h + 1 := by omega
  have : ((h + 1).natAbs : Int) < ((2 ^ bits_needed h : Nat) : Int) := by
    exact_mod_cast hlt
  rw [habs] at this
  push_cast at this
  omega

theorem bits_needed_ge_two {h : Int} (h1 : 1  ≤ h) : 2 ≤ bits_needed h := by
  show 2 ≤ bit_length (h + 1).natAbs
  have : 1 < bit_length (h + 1).natAbs := by
    rw [lt_bit_length_iff]
    omega
  omega

theorem bits_needed_le_32 {h : Int} (h0 : -1 ≤ h) (h2 : h + 2 ≤ 4294967296) :
    bits_needed h ≤ 32 := by
  show bit_length (h + 1).natAbs ≤ 32
  rw [bit_length_le_iff]
  have : (2 : Nat) ^ 32 = 4294967296 := by norm_num
  omega

/-- C1: for every host count `h ≥ 1` (that fits IPv4 at all), the sizing step
`new_prefix = 32 - (h + 1).bit_length()` computes the unique prefix length
`p` of the minimal block satisfying `2 ^ (32 - p) ≥ h + 2`: the block at `p`
suffices, any longer prefix's block is too small, and in particular the
values for 2, 6 and 254 hosts are 30, 29 and 24, with no round-up when
`h + 2` is exactly a power of two. -/
theorem sizing_minimal_prefix :
    (∀ h : Int, 1 ≤ h → h + 2 ≤ 4294967296 →
      0 ≤ newPrefixOf h ∧ newPrefixOf h ≤ 30 ∧
      h + 2 ≤ (2 : Int) ^ (32 - (newPrefixOf h).toNat) ∧
      (∀ q : Nat, (newPrefixOf h).toNat < q → q ≤ 32 → (2 : Int) ^ (32 - q) < h + 2)) ∧
    newPrefixOf 2 = 30 ∧ newPrefixOf 6 = 29 ∧ newPrefixOf 254 = 24 ∧
    (∀ k : Nat, 1 ≤ k → k ≤ 32 → newPrefixOf ((2 : Int) ^ k - 2) = 32 - (k : Int)) := by
  refine ⟨?_, by decide, by decide, by decide, ?_⟩
  · intro h h1 h2
    have hb2 : 2 ≤ bits_needed h := bits_needed_ge_two h1
    have hb32 : bits_needed h ≤ 32 := bits_needed_le_32 (by omega) h2
    have hup : h + 2 ≤ (2 : Int) ^ bits_needed h := add_two_le_two_pow_bits_needed (by omega)
    have hto : (newPrefixOf h).toNat = 32 - bits_needed h := by
      show (32 - (bits_needed h : Int)).toNat = 32 - bits_needed h
      omega
    have hexp : 32 - (newPrefixOf h).toNat = bits_needed h := by omega
    refine ⟨by show (0 : Int) ≤ 32 - (bits_needed h : Int); omega,
            by show (32 : Int) - (bits_needed h : Int) ≤ 30; omega,
            by rw [hexp]; exact hup, ?_⟩
    intro q hq1 hq2
    have hlow : 2 ^ (bits_needed h - 1) ≤ (h + 1).natAbs :=
      two_pow_pred_bit_length_le (h + 1).natAbs (by omega)
    have hqe : 32 - q ≤ bits_needed h - 1 := by omega
    have hmono : (2 : Nat) ^ (32 - q) ≤ 2 ^ (bits_needed h - 1) :=
      Nat.pow_le_pow_right (by omega) hqe
    have hle : (2 : Nat) ^ (32 - q) ≤ (h + 1).natAbs := le_trans hmono hlow
    have hcast : ((2 ^ (32 - q) : Nat) : Int) ≤ ((h + 1).natAbs : Int) := by exact_mod_cast hle
    have hc2 : ((2 ^ (32 - q) : Nat) : Int) = (2 : Int) ^ (32 - q) := by push_cast; ring
    have habs2 : ((h + 1).natAbs : Int) = h + 1 := by omega
    rw [hc2, habs2] at hcast
    omega
  · intro k hk1 hk32
    have hpow1 : (1 : Nat) ≤ 2 ^ (k - 1) := Nat.one_le_two_pow
    have hpow : (2 : Nat) ^ k = 2 * 2 ^ (k - 1) := by
      rw [← pow_succ']
      congr 1
      omega
    have habs : ((2 : Int) ^ k - 2 + 1).natAbs = 2 ^ k - 1 := by
      have : ((2 ^ k : Nat) : Int) = (2 : Int) ^ k := by push_cast; ring
      omega
    have hbl : bit_length (2 ^ k - 1) = k := by
      have hle : bit_length (2 ^ k - 1) ≤ k := by
        rw [bit_length_le_iff]
        have : (0 : Nat) < 2 ^ k := Nat.pos_pow_of_pos _ (by omega)
        omega
      have hge : k - 1 < bit_length (2 ^ k - 1) := by
        rw [lt_bit_length_iff]
        omega
      omega
    show 32 - (bits_needed ((2 : Int) ^ k - 2) : Int) = 32 - (k : Int)
    show 32 - (bit_length ((2 : Int) ^ k - 2 + 1).natAbs : Int) = 32 - (k : Int)
    rw [habs, hbl]

/-- Witness for C1 at the concrete host count 254. -/
theorem sizing_minimal_prefix_witness :
    0 ≤ newPrefixOf 254 ∧ newPrefixOf 254 ≤ 30 ∧
    (254 : Int) + 2 ≤ (2 : Int) ^ (32 - (newPrefixOf 254).toNat) ∧
    (∀ q : Nat, (newPrefixOf 254).toNat < q → q ≤ 32 → (2 : Int) ^ (32 - q) < 254 + 2) :=
  sizing_minimal_prefix.1 254 (by norm_num) (by norm_num)

/-! ## Loop lemmas -/

theorem mkRow_requested (h : Int) (sub : Net) : (mkRow h sub).requested = h := by
  rw [mkRow]; split <;> rfl

theorem mkRow_netIp (h : Int) (sub : Net) : (mkRow h sub).netIp = sub.network := by
  rw [mkRow]; split <;> rfl

theorem mkRow_prefixlen (h : Int) (sub : Net) : (mkRow h sub).prefixlen = sub.prefixlen := by
  rw [mkRow]; split <;> rfl

theorem mkRow_broadcast (h : Int) (sub : Net) : (mkRow h sub).broadcast = sub.broadcast := by
  rw [mkRow]; split <;> rfl

/-- The loop only appends to the transient `results` list. -/
theorem allocLoop_length_mono (parent : Net) :
    ∀ (l : List Int) (acc : List AllocationRecord) (cur : Nat),
      acc.length ≤ (allocLoop parent l acc cur).records.length := by
  intro l
  induction l with
  | nil => intro acc cur; exact le_refl _
  | cons h rest ih =>
    intro acc cur
    simp only [allocLoop]
    split
    · exact le_refl _
    · split
      · exact le_refl _
      · split
        · exact le_refl _
        · split
          · exact le_refl _
          · split
            · simp
            · exact le_trans (by simp) (ih (acc ++ [mkRow h (mkNetNonStrict cur (32 - bits_needed h))]) _)

/-- Containment invariant: starting from a cursor inside the parent, with all
accumulated rows contained in the parent, every row the loop ever returns lies
between the parent's network and broadcast addresses. -/
theorem allocLoop_contained (parent : Net)
    (halign : blockSize parent.prefixlen ∣ parent.network) :
    ∀ (l : List Int) (acc : List AllocationRecord) (cur : Nat),
      parent.network ≤ cur →
      (∀ r ∈ acc, parent.network ≤ r.netIp ∧ r.broadcast ≤ parent.broadcast) →
      ∀ r ∈ (allocLoop parent l acc cur).records,
        parent.network ≤ r.netIp ∧ r.broadcast ≤ parent.broadcast := by
  intro l
  induction l with
  | nil => intro acc cur _ hacc r hr; exact hacc r hr
  | cons h rest ih =>
    intro acc cur hcur hacc r hr
    simp only [allocLoop] at hr
    by_cases h1 : (parent.numAddresses : Int) < h + 2
    · rw [if_pos h1] at hr; exact hacc r hr
    · rw [if_neg h1] at hr
      by_cases h2 : (32 - (bits_needed h : Int)) < (parent.prefixlen : Int)
      · rw [if_pos h2] at hr; exact hacc r hr
      · rw [if_neg h2] at hr
        have hpe : parent.prefixlen ≤ 32 - bits_needed h := by omega
        set sub := mkNetNonStrict cur (32 - bits_needed h) with hsubdef
        have hdvdnet : blockSize (32 - bits_needed h) ∣ parent.network :=
          dvd_trans (blockSize_dvd hpe) halign
        have hnet_ge : parent.network ≤ sub.network :=
          le_mkNet_of_dvd_le (blockSize_pos _) hdvdnet hcur
        have hrowfacts : ∀ hbc : ¬ parent.broadcast < sub.broadcast,
            parent.network ≤ (mkRow h sub).netIp ∧
            (mkRow h sub).broadcast ≤ parent.broadcast := by
          intro hbc
          rw [mkRow_netIp, mkRow_broadcast]
          exact ⟨hnet_ge, by omega⟩
        by_cases h3 : parent.broadcast < sub.broadcast
        · rw [if_pos h3] at hr; exact hacc r hr
        · rw [if_neg h3] at hr
          by_cases h4 : addrSpace ≤ sub.network + 1 ∨ sub.broadcast = 0
          · rw [if_pos h4] at hr; exact hacc r hr
          · rw [if_neg h4] at hr
            by_cases h5 : sub.broadcast + 1 = addrSpace
            · rw [if_pos h5] at hr
              rcases List.mem_append.1 hr with hmem | hmem
              · exact hacc r hmem
              · rw [List.mem_singleton] at hmem
                subst hmem
                exact hrowfacts h3
            · rw [if_neg h5] at hr
              refine ih (acc ++ [mkRow h sub]) (sub.broadcast + 1) ?_ ?_ r hr
              · have hbs := blockSize_pos (32 - bits_needed h)
                have : sub.network ≤ sub.broadcast := by
                  show sub.network ≤ sub.network + blockSize sub.prefixlen - 1
                  have := blockSize_pos sub.prefixlen
                  omega
                omega
              · intro r' hr'
                rcases List.mem_append.1 hr' with hmem | hmem
                · exact hacc r' hmem
                · rw [List.mem_singleton] at hmem
                  subst hmem
                  exact hrowfacts h3


/-! ### Step equations of the two loops -/

theorem allocLoop_nil (parent : Net) (acc : List AllocationRecord) (cur : Nat) :
    allocLoop parent [] acc cur = ⟨acc, cur, none⟩ := rfl

theorem allocLoopStrict_nil (parent : Net) (acc : List AllocationRecord) (cur : Nat) :
    allocLoopStrict parent [] acc cur = ⟨acc, cur, none⟩ := rfl

theorem allocLoop_cons_space (parent : Net) (h : Int) (rest : List Int)
    (acc : List AllocationRecord) (cur : Nat)
    (h1 : (parent.numAddresses : Int) < h + 2) :
    allocLoop parent (h :: rest) acc cur = ⟨acc, cur, some .insufficientSpace⟩ := by
  simp only [allocLoop, if_pos h1]

theorem allocLoopStrict_cons_space (parent : Net) (h : Int) (rest : List Int)
    (acc : List AllocationRecord) (cur : Nat)
    (h1 : (parent.numAddresses : Int) < h + 2) :
    allocLoopStrict parent (h :: rest) acc cur = ⟨acc, cur, some .insufficientSpace⟩ := by
  simp only [allocLoopStrict, if_pos h1]

theorem allocLoop_cons_prefixErr (parent : Net) (h : Int) (rest : List Int)
    (acc : List AllocationRecord) (cur : Nat)
    (h1 : ¬ (parent.numAddresses : Int) < h + 2)
    (h2 : (32 - (bits_needed h : Int)) < (parent.prefixlen : Int)) :
    allocLoop parent (h :: rest) acc cur = ⟨acc, cur, some .prefixTooShort⟩ := by
  simp only [allocLoop, if_neg h1, if_pos h2]

theorem allocLoopStrict_cons_prefixErr (parent : Net) (h : Int) (rest : List Int)
    (acc : List AllocationRecord) (cur : Nat)
    (h1 : ¬ (parent.numAddresses : Int) < h + 2)
    (h2 : (32 - (bits_needed h : Int)) < (parent.prefixlen : Int)) :
    allocLoopStrict parent (h :: rest) acc cur = ⟨acc, cur, some .prefixTooShort⟩ := by
  simp only [allocLoopStrict, if_neg h1, if_pos h2]

theorem allocLoop_cons_boundary (parent : Net) (h : Int) (rest : List Int)
    (acc : List AllocationRecord) (cur : Nat)
    (h1 : ¬ (parent.numAddresses : Int) < h + 2)
    (h2 : ¬ (32 - (bits_needed h : Int)) < (parent.prefixlen : Int))
    (h3 : parent.broadcast < (mkNetNonStrict cur (32 - bits_needed h)).broadcast) :
    allocLoop parent (h :: rest) acc cur = ⟨acc, cur, some .boundaryExceeded⟩ := by
  simp only [allocLoop, if_neg h1, if_neg h2, if_pos h3]

theorem allocLoopStrict_cons_boundary (parent : Net) (h : Int) (rest : List Int)
    (acc : List AllocationRecord) (cur : Nat)
    (h1 : ¬ (parent.numAddresses : Int) < h + 2)
    (h2 : ¬ (32 - (bits_needed h : Int)) < (parent.prefixlen : Int))
    (h3 : parent.broadcast < (Net.broadcast ⟨cur, 32 - bits_needed h⟩)) :
    allocLoopStrict parent (h :: rest) acc cur = ⟨acc, cur, some .boundaryExceeded⟩ := by
  simp only [allocLoopStrict, if_neg h1, if_neg h2, if_pos h3]

theorem allocLoop_cons_calcErr (parent : Net) (h : Int) (rest : List Int)
    (acc : List AllocationRecord) (cur : Nat)
    (h1 : ¬ (parent.numAddresses : Int) < h + 2)
    (h2 : ¬ (32 - (bits_needed h : Int)) < (parent.prefixlen : Int))
    (h3 : ¬ parent.broadcast < (mkNetNonStrict cur (32 - bits_needed h)).broadcast)
    (h4 : addrSpace ≤ (mkNetNonStrict cur (32 - bits_needed h)).network + 1 ∨
          (mkNetNonStrict cur (32 - bits_needed h)).broadcast = 0) :
    allocLoop parent (h :: rest) acc cur = ⟨acc, cur, some .calcError⟩ := by
  simp only [allocLoop, if_neg h1, if_neg h2, if_neg h3, if_pos h4]

theorem allocLoop_cons_calcErrTop (parent : Net) (h : Int) (rest : List Int)
    (acc : List AllocationRecord) (cur : Nat)
    (h1 : ¬ (parent.numAddresses : Int) < h + 2)
    (h2 : ¬ (32 - (bits_needed h : Int)) < (parent.prefixlen : Int))
    (h3 : ¬ parent.broadcast < (mkNetNonStrict cur (32 - bits_needed h)).broadcast)
    (h4 : ¬ (addrSpace ≤ (mkNetNonStrict cur (32 - bits_needed h)).network + 1 ∨
          (mkNetNonStrict cur (32 - bits_needed h)).broadcast = 0))
    (h5 : (mkNetNonStrict cur (32 - bits_needed h)).broadcast + 1 = addrSpace) :
    allocLoop parent (h :: rest) acc cur =
      ⟨acc ++ [mkRow h (mkNetNonStrict cur (32 - bits_needed h))], cur, some .calcError⟩ := by
  simp only [allocLoop, if_neg h1, if_neg h2, if_neg h3, if_neg h4, if_pos h5]

theorem allocLoop_cons_step (parent : Net) (h : Int) (rest : List Int)
    (acc : List AllocationRecord) (cur : Nat)
    (h1 : ¬ (parent.numAddresses : Int) < h + 2)
    (h2 : ¬ (32 - (bits_needed h : Int)) < (parent.prefixlen : Int))
    (h3 : ¬ parent.broadcast < (mkNetNonStrict cur (32 - bits_needed h)).broadcast)
    (h4 : ¬ (addrSpace ≤ (mkNetNonStrict cur (32 - bits_needed h)).network + 1 ∨
          (mkNetNonStrict cur (32 - bits_needed h)).broadcast = 0))
    (h5 : ¬ (mkNetNonStrict cur (32 - bits_needed h)).broadcast + 1 = addrSpace) :
    allocLoop parent (h :: rest) acc cur =
      allocLoop parent rest (acc ++ [mkRow h (mkNetNonStrict cur (32 - bits_needed h))])
        ((mkNetNonStrict cur (32 - bits_needed h)).broadcast + 1) := by
  conv_lhs => rw [allocLoop]
  simp only [if_neg h1, if_neg h2, if_neg h3, if_neg h4, if_neg h5]

theorem allocLoopStrict_cons_calcErr (parent : Net) (h : Int) (rest : List Int)
    (acc : List AllocationRecord) (cur : Nat)
    (h1 : ¬ (parent.numAddresses : Int) < h + 2)
    (h2 : ¬ (32 - (bits_needed h : Int)) < (parent.prefixlen : Int))
    (h3 : ¬ parent.broadcast < (Net.broadcast ⟨cur, 32 - bits_needed h⟩))
    (h4 : addrSpace ≤ (Net.network ⟨cur, 32 - bits_needed h⟩) + 1 ∨
          (Net.broadcast ⟨cur, 32 - bits_needed h⟩) = 0) :
    allocLoopStrict parent (h :: rest) acc cur = ⟨acc, cur, some .calcError⟩ := by
  simp only [allocLoopStrict, if_neg h1, if_neg h2, if_neg h3, if_pos h4]

theorem allocLoopStrict_cons_calcErrTop (parent : Net) (h : Int) (rest : List Int)
    (acc : List AllocationRecord) (cur : Nat)
    (h1 : ¬ (parent.numAddresses : Int) < h + 2)
    (h2 : ¬ (32 - (bits_needed h : Int)) < (parent.prefixlen : Int))
    (h3 : ¬ parent.broadcast < (Net.broadcast ⟨cur, 32 - bits_needed h⟩))
    (h4 : ¬ (addrSpace ≤ (Net.network ⟨cur, 32 - bits_needed h⟩) + 1 ∨
          (Net.broadcast ⟨cur, 32 - bits_needed h⟩) = 0))
    (h5 : (Net.broadcast ⟨cur, 32 - bits_needed h⟩) + 1 = addrSpace) :
    allocLoopStrict parent (h :: rest) acc cur =
      ⟨acc ++ [mkRow h ⟨cur, 32 - bits_needed h⟩], cur, some .calcError⟩ := by
  simp only [allocLoopStrict, if_neg h1, if_neg h2, if_neg h3, if_neg h4, if_pos h5]

theorem allocLoopStrict_cons_step (parent : Net) (h : Int) (rest : List Int)
    (acc : List AllocationRecord) (cur : Nat)
    (h1 : ¬ (parent.numAddresses : Int) < h + 2)
    (h2 : ¬ (32 - (bits_needed h : Int)) < (parent.prefixlen : Int))
    (h3 : ¬ parent.broadcast < (Net.broadcast ⟨cur, 32 - bits_needed h⟩))
    (h4 : ¬ (addrSpace ≤ (Net.network ⟨cur, 32 - bits_needed h⟩) + 1 ∨
          (Net.broadcast ⟨cur, 32 - bits_needed h⟩) = 0))
    (h5 : ¬ (Net.broadcast ⟨cur, 32 - bits_needed h⟩) + 1 = addrSpace) :
    allocLoopStrict parent (h :: rest) acc cur =
      allocLoopStrict parent rest (acc ++ [mkRow h ⟨cur, 32 - bits_needed h⟩])
        ((Net.broadcast ⟨cur, 32 - bits_needed h⟩) + 1) := by
  conv_lhs => rw [allocLoopStrict]
  simp only [if_neg h1, if_neg h2, if_neg h3, if_neg h4, if_neg h5]

/-- Master invariant of a run on a descending list of positive requests:
starting from a cursor that every upcoming (admissible) block size divides,
the non-strict loop coincides with the strict cursor-placed loop, every row
starts at or before its broadcast and is aligned to its own block,
consecutive rows are contiguous, and the first row starts at the parent's
network address. -/
theorem allocLoop_master (parent : Net) :
    ∀ (l : List Int) (acc : List AllocationRecord) (cur : Nat),
      List.Sorted (fun a b : Int => b ≤ a) l →
      (∀ h ∈ l, 1 ≤ h) →
      (∀ h ∈ l, bits_needed h ≤ 32 - parent.prefixlen → 2 ^ bits_needed h ∣ cur) →
      (∀ r ∈ acc, r.netIp ≤ r.broadcast ∧ blockSize r.prefixlen ∣ r.netIp) →
      List.Chain' (fun a b => b.netIp = a.broadcast + 1) acc →
      (acc.getLast? = none → cur = parent.network) →
      (∀ last, acc.getLast? = some last → cur = last.broadcast + 1) →
      (∀ r, acc.head? = some r → r.netIp = parent.network) →
      allocLoop parent l acc cur = allocLoopStrict parent l acc cur ∧
      (∀ r ∈ (allocLoop parent l acc cur).records,
        r.netIp ≤ r.broadcast ∧ blockSize r.prefixlen ∣ r.netIp) ∧
      (allocLoop parent l acc cur).records.Chain' (fun a b => b.netIp = a.broadcast + 1) ∧
      (∀ r, (allocLoop parent l acc cur).records.head? = some r →
        r.netIp = parent.network) := by
  intro l
  induction l with
  | nil =>
    intro acc cur _ _ _ haccf hchain _ _ hhead
    exact ⟨rfl, haccf, hchain, hhead⟩
  | cons h rest ih =>
    intro acc cur hsort hpos hdiv haccf hchain hlnone hlsome hhead
    by_cases h1 : (parent.numAddresses : Int) < h + 2
    · rw [allocLoop_cons_space parent h rest acc cur h1,
          allocLoopStrict_cons_space parent h rest acc cur h1]
      exact ⟨rfl, haccf, hchain, hhead⟩
    · by_cases h2 : (32 - (bits_needed h : Int)) < (parent.prefixlen : Int)
      · rw [allocLoop_cons_prefixErr parent h rest acc cur h1 h2,
            allocLoopStrict_cons_prefixErr parent h rest acc cur h1 h2]
        exact ⟨rfl, haccf, hchain, hhead⟩
      · have hble : bits_needed h ≤ 32 - parent.prefixlen := by omega
        have hbseq : blockSize (32 - bits_needed h) = 2 ^ bits_needed h := by
          show 2 ^ (32 - (32 - bits_needed h)) = 2 ^ bits_needed h
          congr 1
          omega
        have hdvdbs : blockSize (32 - bits_needed h) ∣ cur := by
          rw [hbseq]
          exact hdiv h (List.mem_cons_self h rest) hble
        have hsub_eq : mkNetNonStrict cur (32 - bits_needed h) =
            (⟨cur, 32 - bits_needed h⟩ : Net) := by
          show Net.mk (blockSize (32 - bits_needed h) * (cur / blockSize (32 - bits_needed h)))
            (32 - bits_needed h) = Net.mk cur (32 - bits_needed h)
          rw [Nat.mul_div_cancel' hdvdbs]
        have hbspos : 0 < blockSize (32 - bits_needed h) := blockSize_pos _
        have hrow_net : (mkRow h (mkNetNonStrict cur (32 - bits_needed h))).netIp = cur := by
          rw [mkRow_netIp, hsub_eq]
        have hrow_bc : (mkRow h (mkNetNonStrict cur (32 - bits_needed h))).broadcast =
            (mkNetNonStrict cur (32 - bits_needed h)).broadcast := mkRow_broadcast _ _
        have hrow_pl : (mkRow h (mkNetNonStrict cur (32 - bits_needed h))).prefixlen =
            32 - bits_needed h := by
          rw [mkRow_prefixlen, hsub_eq]
        have hbc_val : (mkNetNonStrict cur (32 - bits_needed h)).broadcast =
            cur + blockSize (32 - bits_needed h) - 1 := by
          rw [hsub_eq]
          rfl
        have hrowfacts :
            (mkRow h (mkNetNonStrict cur (32 - bits_needed h))).netIp ≤
              (mkRow h (mkNetNonStrict cur (32 - bits_needed h))).broadcast ∧
            blockSize (mkRow h (mkNetNonStrict cur (32 - bits_needed h))).prefixlen ∣
              (mkRow h (mkNetNonStrict cur (32 - bits_needed h))).netIp := by
          rw [hrow_net, hrow_bc, hrow_pl, hbc_val]
          exact ⟨by omega, hdvdbs⟩
        have haccf' : ∀ r ∈ acc ++ [mkRow h (mkNetNonStrict cur (32 - bits_needed h))],
            r.netIp ≤ r.broadcast ∧ blockSize r.prefixlen ∣ r.netIp := by
          intro r hr
          rcases List.mem_append.1 hr with hm | hm
          · exact haccf r hm
          · rw [List.mem_singleton] at hm
            subst hm
            exact hrowfacts
        have hchain' : List.Chain' (fun a b => b.netIp = a.broadcast + 1)
            (acc ++ [mkRow h (mkNetNonStrict cur (32 - bits_needed h))]) := by
          rw [List.chain'_append]
          refine ⟨hchain, List.chain'_singleton _, ?_⟩
          intro x hx y hy
          simp only [List.head?_cons, Option.mem_def, Option.some.injEq] at hy
          subst hy
          rw [Option.mem_def] at hx
          rw [hrow_net]
          exact hlsome x hx
        have hhead' : ∀ r,
            (acc ++ [mkRow h (mkNetNonStrict cur (32 - bits_needed h))]).head? = some r →
            r.netIp = parent.network := by
          intro r hr
          cases acc with
          | nil =>
            simp only [List.nil_append, List.head?_cons, Option.some.injEq] at hr
            subst hr
            rw [hrow_net]
            exact (hlnone rfl)
          | cons a as =>
            simp only [List.cons_append, List.head?_cons, Option.some.injEq] at hr
            subst hr
            exact hhead a rfl
        by_cases h3 : parent.broadcast < (mkNetNonStrict cur (32 - bits_needed h)).broadcast
        · have h3s : parent.broadcast < (Net.broadcast ⟨cur, 32 - bits_needed h⟩) := by
            rw [← hsub_eq]; exact h3
          rw [allocLoop_cons_boundary parent h rest acc cur h1 h2 h3,
              allocLoopStrict_cons_boundary parent h rest acc cur h1 h2 h3s]
          exact ⟨rfl, haccf, hchain, hhead⟩
        · have h3s : ¬ parent.broadcast < (Net.broadcast ⟨cur, 32 - bits_needed h⟩) := by
            rw [← hsub_eq]; exact h3
          by_cases h4 : addrSpace ≤ (mkNetNonStrict cur (32 - bits_needed h)).network + 1 ∨
              (mkNetNonStrict cur (32 - bits_needed h)).broadcast = 0
          · have h4s : addrSpace ≤ (Net.network ⟨cur, 32 - bits_needed h⟩) + 1 ∨
                (Net.broadcast ⟨cur, 32 - bits_needed h⟩) = 0 := by
              rw [← hsub_eq]; exact h4
            rw [allocLoop_cons_calcErr parent h rest acc cur h1 h2 h3 h4,
                allocLoopStrict_cons_calcErr parent h rest acc cur h1 h2 h3s h4s]
            exact ⟨rfl, haccf, hchain, hhead⟩
          · have h4s : ¬ (addrSpace ≤ (Net.network ⟨cur, 32 - bits_needed h⟩) + 1 ∨
                (Net.broadcast ⟨cur, 32 - bits_needed h⟩) = 0) := by
              rw [← hsub_eq]; exact h4
            by_cases h5 : (mkNetNonStrict cur (32 - bits_needed h)).broadcast + 1 = addrSpace
            · have h5s : (Net.broadcast ⟨cur, 32 - bits_needed h⟩) + 1 = addrSpace := by
                rw [← hsub_eq]; exact h5
              rw [allocLoop_cons_calcErrTop parent h rest acc cur h1 h2 h3 h4 h5,
                  allocLoopStrict_cons_calcErrTop parent h rest acc cur h1 h2 h3s h4s h5s]
              refine ⟨?_, haccf', hchain', hhead'⟩
              rw [hsub_eq]
            · have h5s : ¬ (Net.broadcast ⟨cur, 32 - bits_needed h⟩) + 1 = addrSpace := by
                rw [← hsub_eq]; exact h5
              rw [allocLoop_cons_step parent h rest acc cur h1 h2 h3 h4 h5,
                  allocLoopStrict_cons_step parent h rest acc cur h1 h2 h3s h4s h5s]
              have hcur' : (mkNetNonStrict cur (32 - bits_needed h)).broadcast + 1 =
                  cur + 2 ^ bits_needed h := by
                rw [hbc_val, hbseq]
                have : (0 : Nat) < 2 ^ bits_needed h := Nat.pos_pow_of_pos _ (by omega)
                omega
              have hdiv' : ∀ h' ∈ rest,
                  bits_needed h' ≤ 32 - parent.prefixlen →
                  2 ^ bits_needed h' ∣ (mkNetNonStrict cur (32 - bits_needed h)).broadcast + 1 := by
                intro h' hm _
                rw [hcur']
                have hh'h : h' ≤ h := List.rel_of_sorted_cons hsort h' hm
                have hh'1 : 1 ≤ h' := hpos h' (List.mem_cons_of_mem h hm)
                have hbm : bits_needed h' ≤ bits_needed h := bits_needed_mono hh'1 hh'h
                have hd1 : 2 ^ bits_needed h' ∣ cur :=
                  dvd_trans (pow_dvd_pow 2 hbm) (hdiv h (List.mem_cons_self h rest) hble)
                exact dvd_add hd1 (pow_dvd_pow 2 hbm)
              have hlnone' :
                  (acc ++ [mkRow h (mkNetNonStrict cur (32 - bits_needed h))]).getLast? = none →
                  (mkNetNonStrict cur (32 - bits_needed h)).broadcast + 1 = parent.network := by
                intro hcontra
                rw [List.getLast?_concat _] at hcontra
                exact absurd hcontra (by simp)
              have hlsome' : ∀ last,
                  (acc ++ [mkRow h (mkNetNonStrict cur (32 - bits_needed h))]).getLast? =
                    some last →
                  (mkNetNonStrict cur (32 - bits_needed h)).broadcast + 1 =
                    last.broadcast + 1 := by
                intro last hl
                rw [List.getLast?_concat _] at hl
                injection hl with hl
                subst hl
                rw [hrow_bc]
              have hres := ih (acc ++ [mkRow h (mkNetNonStrict cur (32 - bits_needed h))])
                ((mkNetNonStrict cur (32 - bits_needed h)).broadcast + 1) hsort.of_cons
                (fun h' hm => hpos h' (List.mem_cons_of_mem h hm)) hdiv'
                haccf' hchain' hlnone' hlsome' hhead'
              refine ⟨?_, hres.2.1, hres.2.2.1, hres.2.2.2⟩
              rw [hres.1, hsub_eq]

theorem mkRow_usable_of_le30 (h : Int) (sub : Net) (hp : sub.prefixlen ≤ 30) :
    (mkRow h sub).usable = blockSize sub.prefixlen - 2 := by
  have hlen : sub.hostsLen = blockSize sub.prefixlen - 2 := by
    rw [Net.hostsLen, if_neg (by omega : ¬ sub.prefixlen = 31),
        if_neg (by omega : ¬ sub.prefixlen = 32)]
  have hbs : 4 ≤ blockSize sub.prefixlen := by
    show 4 ≤ 2 ^ (32 - sub.prefixlen)
    calc (4 : Nat) = 2 ^ 2 := rfl
      _ ≤ 2 ^ (32 - sub.prefixlen) := Nat.pow_le_pow_right (by omega) (by omega)
  simp only [mkRow, hlen]
  rw [if_neg (by omega : ¬ blockSize sub.prefixlen - 2 < 1)]

/-- Every row the loop emits for a positive request provides at least the
requested number of usable addresses. -/
theorem allocLoop_usable (parent : Net) :
    ∀ (l : List Int) (acc : List AllocationRecord) (cur : Nat),
      (∀ r ∈ acc, 1 ≤ r.requested → r.requested ≤ (r.usable : Int)) →
      ∀ r ∈ (allocLoop parent l acc cur).records,
        1 ≤ r.requested → r.requested ≤ (r.usable : Int) := by
  intro l
  induction l with
  | nil => intro acc cur hacc; exact hacc
  | cons h rest ih =>
    intro acc cur hacc
    by_cases h1 : (parent.numAddresses : Int) < h + 2
    · rw [allocLoop_cons_space parent h rest acc cur h1]; exact hacc
    · by_cases h2 : (32 - (bits_needed h : Int)) < (parent.prefixlen : Int)
      · rw [allocLoop_cons_prefixErr parent h rest acc cur h1 h2]; exact hacc
      · have hrow : 1 ≤ (mkRow h (mkNetNonStrict cur (32 - bits_needed h))).requested →
            (mkRow h (mkNetNonStrict cur (32 - bits_needed h))).requested ≤
              ((mkRow h (mkNetNonStrict cur (32 - bits_needed h))).usable : Int) := by
          rw [mkRow_requested]
          intro hh1
          have hb2 : 2 ≤ bits_needed h := bits_needed_ge_two hh1
          have hb32 : bits_needed h ≤ 32 := by omega
          have hple : (mkNetNonStrict cur (32 - bits_needed h)).prefixlen ≤ 30 := by
            show 32 - bits_needed h ≤ 30
            omega
          rw [mkRow_usable_of_le30 _ _ hple]
          have hbseq : blockSize (mkNetNonStrict cur (32 - bits_needed h)).prefixlen =
              2 ^ bits_needed h := by
            show 2 ^ (32 - (32 - bits_needed h)) = 2 ^ bits_needed h
            congr 1
            omega
          rw [hbseq]
          have hup : h + 2 ≤ (2 : Int) ^ bits_needed h :=
            add_two_le_two_pow_bits_needed (by omega)
          have h4le : (4 : Nat) ≤ 2 ^ bits_needed h :=
            calc (4 : Nat) = 2 ^ 2 := rfl
              _ ≤ 2 ^ bits_needed h := Nat.pow_le_pow_right (by omega) hb2
          have hcast : (2 : Int) ^ bits_needed h = ((2 ^ bits_needed h : Nat) : Int) := by
            push_cast
            ring
          omega
        have hacc' : ∀ r ∈ acc ++ [mkRow h (mkNetNonStrict cur (32 - bits_needed h))],
            1 ≤ r.requested → r.requested ≤ (r.usable : Int) := by
          intro r hr
          rcases List.mem_append.1 hr with hm | hm
          · exact hacc r hm
          · rw [List.mem_singleton] at hm
            subst hm
            exact hrow
        by_cases h3 : parent.broadcast < (mkNetNonStrict cur (32 - bits_needed h)).broadcast
        · rw [allocLoop_cons_boundary parent h rest acc cur h1 h2 h3]; exact hacc
        · by_cases h4 : addrSpace ≤ (mkNetNonStrict cur (32 - bits_needed h)).network + 1 ∨
              (mkNetNonStrict cur (32 - bits_needed h)).broadcast = 0
          · rw [allocLoop_cons_calcErr parent h rest acc cur h1 h2 h3 h4]; exact hacc
          · by_cases h5 : (mkNetNonStrict cur (32 - bits_needed h)).broadcast + 1 = addrSpace
            · rw [allocLoop_cons_calcErrTop parent h rest acc cur h1 h2 h3 h4 h5]; exact hacc'
            · rw [allocLoop_cons_step parent h rest acc cur h1 h2 h3 h4 h5]
              exact ih _ _ hacc'

/-! ### Chains of contiguous rows are pairwise disjoint -/

theorem chain_link_lt :
    ∀ (t : List AllocationRecord) (a : AllocationRecord),
      (∀ r ∈ t, r.netIp ≤ r.broadcast) →
      List.Chain (fun x y => y.netIp = x.broadcast + 1) a t →
      ∀ b ∈ t, a.broadcast < b.netIp := by
  intro t
  induction t with
  | nil => intro a _ _ b hb; cases hb
  | cons c t ih =>
    intro a hmem hchain b hb
    rcases List.chain_cons.1 hchain with ⟨hac, hct⟩
    rcases List.mem_cons.1 hb with rfl | hbt
    · omega
    · have hcb := ih c (fun r hr => hmem r (List.mem_cons_of_mem c hr)) hct b hbt
      have hcc : c.netIp ≤ c.broadcast := hmem c (List.mem_cons_self c t)
      omega

theorem chain_link_pairwise :
    ∀ (l : List AllocationRecord),
      (∀ r ∈ l, r.netIp ≤ r.broadcast) →
      List.Chain' (fun a b => b.netIp = a.broadcast + 1) l →
      l.Pairwise (fun a b => a.broadcast < b.netIp) := by
  intro l
  induction l with
  | nil => intro _ _; exact List.Pairwise.nil
  | cons a t ih =>
    intro hmem hchain
    have hchain_a : List.Chain (fun x y => y.netIp = x.broadcast + 1) a t := hchain
    have htail : ∀ r ∈ t, r.netIp ≤ r.broadcast :=
      fun r hr => hmem r (List.mem_cons_of_mem a hr)
    exact List.Pairwise.cons (chain_link_lt t a htail hchain_a) (ih htail hchain.tail)

/-! ## Claim theorems -/

/-- C2: for every valid parent network and valid (positive) requirement list
on which the allocation succeeds, every returned subnet's network and
broadcast addresses lie within the parent's range. -/
theorem subnets_within_parent (addr p : Nat) (l : List Int)
    (haddr : addr < addrSpace) (hp : p ≤ 32) (hpos : ∀ h ∈ l, 1 ≤ h)
    (hok : (allocate addr p l).error = none) :
    ∀ r ∈ (allocate addr p l).records,
      (mkNetNonStrict addr p).network ≤ r.netIp ∧
      r.broadcast ≤ (mkNetNonStrict addr p).broadcast := by
  intro r hr
  exact allocLoop_contained (mkNetNonStrict addr p) (mkNetNonStrict_aligned addr p)
    (sortDesc l) [] (mkNetNonStrict addr p).network (le_refl _) (by simp) r hr

/-- Witness for C2 on the spec's own scenario sizes. -/
theorem subnets_within_parent_witness :
    (allocate 0 24 [100, 50, 20]).records.Forall
      (fun r => (mkNetNonStrict 0 24).network ≤ r.netIp ∧
        r.broadcast ≤ (mkNetNonStrict 0 24).broadcast) :=
  (List.forall_iff_forall_mem).2
    (subnets_within_parent 0 24 [100, 50, 20] (by decide) (by decide) (by decide) (by decide))

/-- C3: on every successful run (valid parent, positive requests) the
returned subnets are contiguously packed — the first starts at the parent's
network address, each next one starts right after the previous broadcast —
and are pairwise non-overlapping. -/
theorem contiguous_packing (addr p : Nat) (l : List Int)
    (haddr : addr < addrSpace) (hp : p ≤ 32) (hpos : ∀ h ∈ l, 1 ≤ h)
    (hok : (allocate addr p l).error = none) :
    (∀ r, (allocate addr p l).records.head? = some r →
      r.netIp = (mkNetNonStrict addr p).network) ∧
    (allocate addr p l).records.Chain' (fun a b => b.netIp = a.broadcast + 1) ∧
    (allocate addr p l).records.Pairwise (fun a b => a.broadcast < b.netIp) := by
  have hsorted : List.Sorted (fun a b : Int => b ≤ a) (sortDesc l) :=
    List.sorted_insertionSort _ l
  have hposs : ∀ h ∈ sortDesc l, 1 ≤ h := by
    intro h hm
    exact hpos h ((List.perm_insertionSort _ l).mem_iff.1 hm)
  have hdiv0 : ∀ h ∈ sortDesc l,
      bits_needed h ≤ 32 - (mkNetNonStrict addr p).prefixlen →
      2 ^ bits_needed h ∣ (mkNetNonStrict addr p).network := by
    intro h _ hble
    exact dvd_trans (pow_dvd_pow 2 hble) (mkNetNonStrict_aligned addr p)
  have hmaster := allocLoop_master (mkNetNonStrict addr p) (sortDesc l) []
    (mkNetNonStrict addr p).network hsorted hposs hdiv0 (by simp) List.chain'_nil
    (fun _ => rfl) (fun last hl => by simp at hl) (fun r hr => by simp at hr)
  obtain ⟨_, hfacts, hchain, hhead⟩ := hmaster
  exact ⟨hhead, hchain, chain_link_pairwise _ (fun r hr => (hfacts r hr).1) hchain⟩

/-- Witness for C3 on the spec's own scenario sizes. -/
theorem contiguous_packing_witness :
    (∀ r, (allocate 0 24 [100, 50, 20]).records.head? = some r →
      r.netIp = (mkNetNonStrict 0 24).network) ∧
    (allocate 0 24 [100, 50, 20]).records.Chain' (fun a b => b.netIp = a.broadcast + 1) ∧
    (allocate 0 24 [100, 50, 20]).records.Pairwise (fun a b => a.broadcast < b.netIp) :=
  contiguous_packing 0 24 [100, 50, 20] (by decide) (by decide) (by decide) (by decide)

/-- C9: with a valid parent and positive requests, the cursor is aligned to
every candidate's block size, so the non-strict construction never clears
host bits: the run equals the strict cursor-placed run, and every returned
subnet is aligned to its own mask. -/
theorem nonstrict_never_clears_host_bits (addr p : Nat) (l : List Int)
    (haddr : addr < addrSpace) (hp : p ≤ 32) (hpos : ∀ h ∈ l, 1 ≤ h) :
    allocate addr p l = allocateStrict addr p l ∧
    ∀ r ∈ (allocate addr p l).records, blockSize r.prefixlen ∣ r.netIp := by
  have hsorted : List.Sorted (fun a b : Int => b ≤ a) (sortDesc l) :=
    List.sorted_insertionSort _ l
  have hposs : ∀ h ∈ sortDesc l, 1 ≤ h := by
    intro h hm
    exact hpos h ((List.perm_insertionSort _ l).mem_iff.1 hm)
  have hdiv0 : ∀ h ∈ sortDesc l,
      bits_needed h ≤ 32 - (mkNetNonStrict addr p).prefixlen →
      2 ^ bits_needed h ∣ (mkNetNonStrict addr p).network := by
    intro h _ hble
    exact dvd_trans (pow_dvd_pow 2 hble) (mkNetNonStrict_aligned addr p)
  have hmaster := allocLoop_master (mkNetNonStrict addr p) (sortDesc l) []
    (mkNetNonStrict addr p).network hsorted hposs hdiv0 (by simp) List.chain'_nil
    (fun _ => rfl) (fun last hl => by simp at hl) (fun r hr => by simp at hr)
  exact ⟨hmaster.1, fun r hr => (hmaster.2.1 r hr).2⟩

/-- Witness for C9 on the spec's own scenario sizes. -/
theorem nonstrict_never_clears_host_bits_witness :
    allocate 0 24 [100, 50, 20] = allocateStrict 0 24 [100, 50, 20] ∧
    ∀ r ∈ (allocate 0 24 [100, 50, 20]).records, blockSize r.prefixlen ∣ r.netIp :=
  nonstrict_never_clears_host_bits 0 24 [100, 50, 20] (by decide) (by decide) (by decide)

/-- C10: on every successful run, each emitted record with a positive
requested host count provides at least that many usable addresses. -/
theorem usable_covers_request (addr p : Nat) (l : List Int)
    (haddr : addr < addrSpace) (hp : p ≤ 32)
    (hok : (allocate addr p l).error = none) :
    ∀ r ∈ (allocate addr p l).records,
      1 ≤ r.requested → r.requested ≤ (r.usable : Int) :=
  fun r hr => allocLoop_usable (mkNetNonStrict addr p) (sortDesc l) []
    (mkNetNonStrict addr p).network (by simp) r hr

/-- Witness for C10 on the spec's own scenario sizes. -/
theorem usable_covers_request_witness :
    (allocate 0 24 [100, 50, 20]).records.Forall
      (fun r => 1 ≤ r.requested → r.requested ≤ (r.usable : Int)) :=
  (List.forall_iff_forall_mem).2
    (usable_covers_request 0 24 [100, 50, 20] (by decide) (by decide) (by decide))

/-- C8: requirements are processed in descending order, and two runs on
permutations of the same multiset of requests return identical results. -/
theorem order_insensitive (addr p : Nat) (l1 l2 : List Int)
    (hperm : List.Perm l1 l2) :
    allocate addr p l1 = allocate addr p l2 ∧
    List.Sorted (fun a b : Int => b ≤ a) (sortDesc l1) := by
  have hs1 : List.Sorted (fun a b : Int => b ≤ a) (sortDesc l1) :=
    List.sorted_insertionSort _ l1
  have hs2 : List.Sorted (fun a b : Int => b ≤ a) (sortDesc l2) :=
    List.sorted_insertionSort _ l2
  have hp12 : List.Perm (sortDesc l1) (sortDesc l2) :=
    (List.perm_insertionSort _ l1).trans (hperm.trans (List.perm_insertionSort _ l2).symm)
  have hsorteq : sortDesc l1 = sortDesc l2 := List.eq_of_perm_of_sorted hp12 hs1 hs2
  constructor
  · show allocLoop (mkNetNonStrict addr p) (sortDesc l1) [] (mkNetNonStrict addr p).network =
      allocLoop (mkNetNonStrict addr p) (sortDesc l2) [] (mkNetNonStrict addr p).network
    rw [hsorteq]
  · exact List.sorted_insertionSort _ l1

/-- Witness for C8 on a permuted pair of the spec's scenario. -/
theorem order_insensitive_witness :
    allocate 0 24 [50, 100, 20] = allocate 0 24 [100, 50, 20] ∧
    List.Sorted (fun a b : Int => b ≤ a) (sortDesc [50, 100, 20]) :=
  order_insensitive 0 24 [50, 100, 20] [100, 50, 20] (by decide)

/-- C4 counterexample: on parent 0.0.0.0/24 with requests [126, 126, 126],
the third request leaves zero remaining addresses (fewer than 126 + 2), yet
the run does not fail with InsufficientSpace — the line-63 guard compares
against the parent's total size (128 ≤ 256), and the failure instead surfaces
as the boundary check. -/
theorem space_guard_counterexample :
    (allocate 0 24 [126, 126, 126]).error = some ErrKind.boundaryExceeded ∧
    (allocate 0 24 [126, 126, 126]).error ≠ some ErrKind.insufficientSpace ∧
    (allocate 0 24 [126, 126, 126]).records.length = 2 ∧
    (allocate 0 24 [126, 126, 126]).finalCursor = 256 ∧
    (mkNetNonStrict 0 24).broadcast + 1 - (allocate 0 24 [126, 126, 126]).finalCursor
      < 126 + 2 := by
  decide

/-- C4 amended: the InsufficientSpace guard is evaluated against the parent's
total address count, not the remaining space — the loop fails immediately
with InsufficientSpace exactly for a requirement whose `h + 2` exceeds the
parent's `num_addresses`, regardless of the cursor. -/
theorem space_guard_uses_total :
    (∀ (parent : Net) (h : Int) (rest : List Int) (acc : List AllocationRecord) (cur : Nat),
      (parent.numAddresses : Int) < h + 2 →
      allocLoop parent (h :: rest) acc cur = ⟨acc, cur, some .insufficientSpace⟩) ∧
    (∀ (parent : Net) (l : List Int) (acc : List AllocationRecord) (cur : Nat),
      (allocLoop parent l acc cur).error = some .insufficientSpace →
      ∃ h ∈ l, (parent.numAddresses : Int) < h + 2) := by
  constructor
  · exact allocLoop_cons_space
  · intro parent l
    induction l with
    | nil =>
      intro acc cur herr
      rw [allocLoop_nil] at herr
      simp at herr
    | cons h rest ih =>
      intro acc cur herr
      by_cases h1 : (parent.numAddresses : Int) < h + 2
      · exact ⟨h, List.mem_cons_self h rest, h1⟩
      · by_cases h2 : (32 - (bits_needed h : Int)) < (parent.prefixlen : Int)
        · rw [allocLoop_cons_prefixErr parent h rest acc cur h1 h2] at herr
          simp at herr
        · by_cases h3 : parent.broadcast < (mkNetNonStrict cur (32 - bits_needed h)).broadcast
          · rw [allocLoop_cons_boundary parent h rest acc cur h1 h2 h3] at herr
            simp at herr
          · by_cases h4 : addrSpace ≤ (mkNetNonStrict cur (32 - bits_needed h)).network + 1 ∨
                (mkNetNonStrict cur (32 - bits_needed h)).broadcast = 0
            · rw [allocLoop_cons_calcErr parent h rest acc cur h1 h2 h3 h4] at herr
              simp at herr
            · by_cases h5 : (mkNetNonStrict cur (32 - bits_needed h)).broadcast + 1 = addrSpace
              · rw [allocLoop_cons_calcErrTop parent h rest acc cur h1 h2 h3 h4 h5] at herr
                simp at herr
              · rw [allocLoop_cons_step parent h rest acc cur h1 h2 h3 h4 h5] at herr
                obtain ⟨h', hm, hlt⟩ := ih _ _ herr
                exact ⟨h', List.mem_cons_of_mem h hm, hlt⟩

/-- Witness for C4's amended guard characterization: a /30 parent cannot hold
5 + 2 addresses, so the very first step fails with InsufficientSpace. -/
theorem space_guard_uses_total_witness :
    allocLoop (mkNetNonStrict 0 30) [5] [] 0 =
      ⟨[], 0, some ErrKind.insufficientSpace⟩ :=
  space_guard_uses_total.1 (mkNetNonStrict 0 30) 5 [] [] 0 (by decide)

/-- C5 counterexample: after the boundary failure on the third request, the
two rows allocated before the failure are still delivered to the result
window — the operation is not all-or-nothing. -/
theorem partial_records_delivered :
    (allocate 0 24 [126, 126, 126]).error.isSome = true ∧
    deliveredRecords (allocate 0 24 [126, 126, 126]) =
      some (allocate 0 24 [126, 126, 126]).records ∧
    (allocate 0 24 [126, 126, 126]).records.length = 2 := by
  decide

/-- C5 amended: only the PrefixTooShort guard returns without delivering any
table; the break-style guards (InsufficientSpace, ParentBoundaryExceeded, and
the ValueError handler) deliver whatever rows were accumulated before the
failure. -/
theorem delivery_per_error (addr p : Nat) (l : List Int) :
    ((allocate addr p l).error = some ErrKind.prefixTooShort →
      deliveredRecords (allocate addr p l) = none) ∧
    (∀ e, (allocate addr p l).error = some e → e ≠ ErrKind.prefixTooShort →
      deliveredRecords (allocate addr p l) = some (allocate addr p l).records) := by
  constructor
  · intro he
    simp [deliveredRecords, he]
  · intro e he hne
    cases e with
    | prefixTooShort => exact absurd rfl hne
    | insufficientSpace => simp [deliveredRecords, he]
    | boundaryExceeded => simp [deliveredRecords, he]
    | calcError => simp [deliveredRecords, he]

/-- Witness for C5's amended delivery rule at a failing input. -/
theorem delivery_per_error_witness :
    deliveredRecords (allocate 0 30 [5]) = some (allocate 0 30 [5]).records :=
  (delivery_per_error 0 30 [5]).2 ErrKind.insufficientSpace (by decide) (by decide)

/-- C6 failing input: Python's `int()` accepts "0" and "-3", so non-positive
tokens do not make parsing fail with InvalidHostCount — a requirement of 0 is
parsed and then allocated a /31 subnet instead of aborting the call. Only
non-integer tokens raise the error. -/
theorem nonpositive_tokens_accepted :
    parseHosts ["0"] = Except.ok [0] ∧
    parseHosts ["-3"] = Except.ok [-3] ∧
    parseHosts ["abc"] = Except.error ParseErr.invalidHostCount ∧
    skuskaRun 0 24 ["0"] = Except.ok (allocate 0 24 [0]) ∧
    (allocate 0 24 [0]).records.length = 1 ∧
    (allocate 0 24 [0]).error = none := by
  decide

/-- C7 failing input: the /31 subnet allocated for a parsed requirement of 0
is reported with usable count 2 and concrete (reversed) host bounds, not with
usable count 0 and "N/A" bounds — under Python >= 3.8, `hosts()` on a /31
yields both addresses, so the `usable_ips < 1` safeguard at lines 101-105
never fires. -/
theorem slash31_reported_with_hosts :
    (allocate 0 24 [0]).records.map
        (fun r => (r.prefixlen, r.usable, r.firstHost, r.lastHost)) =
      [(31, 2, some 1, some 0)] ∧
    (allocate 0 24 [0]).error = none := by
  decide
